import Mathlib

/-!
Verification of the temporal window-assignment engine of `app.py`
(schedule windows, badge-event matching, natural ordering, auto-paging).

The pandas pipeline is embedded shallowly:
* a DataFrame is a `List` of typed rows, in frame order;
* timestamps are `Int` seconds (`minuteOfDay` models `strftime "%H:%M"`,
  which is determined by the minute of the day);
* a text value is its character list (`Str`); Python compares strings
  lexicographically by code point, which is exactly the lexicographic
  order on `List Char`;
* `merge(..., how="left"/"inner")` preserves left order and, per left row,
  right-match order, which is exactly `flatMap` over filtered matches;
* multi-column `sort_values` is a stable sort on the column tuple
  (pandas uses a stable lexsort for multi-key sorts), embedded as
  `List.insertionSort` with the total preorder on the key tuple;
* `drop_duplicates(subset, keep="first")` is `dedupBy`, which keeps the
  first row of each key class;
* a missing value (`NaN` from a left join) is `Option.none`.
-/

namespace CuvariEvidencija

/-- A text value, as its list of characters. -/
abbrev Str := List Char

/-- Keep the first row of each key class, in order
(`DataFrame.drop_duplicates(subset=key, keep="first")`); `seen` is the set of
keys already emitted. -/
def dedupByAux {α κ : Type} [DecidableEq κ] (key : α → κ) (seen : List κ) :
    List α → List α
  | [] => []
  | x :: xs =>
    if key x ∈ seen then dedupByAux key seen xs
    else x :: dedupByAux key (key x :: seen) xs

/-- Keep the first row of each key class, in order. -/
def dedupBy {α κ : Type} [DecidableEq κ] (key : α → κ) (l : List α) : List α :=
  dedupByAux key [] l

/-- Minimum of a list of timestamps (`Series.min()`), `none` on empty input. -/
def listMin : List Int → Option Int
  | [] => none
  | t :: ts =>
    match listMin ts with
    | none => some t
    | some m => some (min t m)

/-- Least element strictly above `s`
(`next((t for t in sorted(unique(l)) if t > s), None)`). -/
def minAbove (l : List Int) (s : Int) : Option Int :=
  listMin (l.filter fun t => decide (s < t))

/-- Minute of the day of a timestamp; `strftime "%H:%M"` renders exactly this
value, so equality of the rendered strings is equality of `minuteOfDay`. -/
def minuteOfDay (t : Int) : Int := t % 86400 / 60

/-- Timestamp of 23:59:59 of day `d` (`datetime.combine(d, time(23,59,59))`). -/
def day_end (d : Int) : Int := d * 86400 + 86399

/-- A row of the schedule frame (`fetch_raspored_for_date`), already
filtered to `state = 1` and with `ucionica` normalized. -/
structure RasporedRow where
  termin : Int
  ucionica : Str
deriving DecidableEq

/-- A window row produced by either window builder. -/
structure Window where
  ucionica : Str
  termin : Int
  window_start : Int
  window_end : Int
deriving DecidableEq

/-- A badge-event row (`fetch_login_log_for_date` / `fetch_logout_log_for_date`). -/
structure LogRow where
  time : Int
  uid_kartice : Str
  ucionica : Str
deriving DecidableEq

/-- A directory row (`fetch_kartice`). -/
structure KarticeRow where
  cuvar : Str
  uid_kartice : Str
deriving DecidableEq

/-- A joined row of the matcher, after the left merge with the directory and
the inner merge with the windows (columns of `j` in `assign_logs_to_windows`). -/
structure JRow where
  time : Int
  uid_kartice : Str
  ucionica : Str
  cuvar : Option Str
  termin : Int
  window_start : Int
  window_end : Int
deriving DecidableEq

/-- An output record of `assign_logs_to_windows`
(`ucionica, vrijeme, broj_kartice, cuvar, termin`). -/
structure OutRow where
  ucionica : Str
  vrijeme : Int
  broj_kartice : Str
  cuvar : Option Str
  termin : Int
deriving DecidableEq

/-- Minutes before the slot opening an entry window (`WINDOW_BEFORE_MIN`). -/
def WINDOW_BEFORE_MIN : Int := 60

/-- Minutes after the slot closing an entry window (`WINDOW_AFTER_MIN`). -/
def WINDOW_AFTER_MIN : Int := 30

/-- Does the schedule row lie at the target `HH:MM`
(`r["termin"].dt.strftime("%H:%M") == hhmm`)? -/
def selMatch (hhmm : Int) (row : RasporedRow) : Bool :=
  decide (minuteOfDay row.termin = hhmm)

/-- Entry window builder (`build_windows_for_time_login`): per schedule row at
the target time, the window `[termin - 60min, termin + 30min)`, then
`drop_duplicates(subset=["ucionica","termin"])`. -/
def build_windows_for_time_login (raspored : List RasporedRow) (hhmm : Int) :
    List Window :=
  let r := raspored.filter (selMatch hhmm)
  let r2 := r.map fun row =>
    Window.mk row.ucionica row.termin
      (row.termin - WINDOW_BEFORE_MIN * 60) (row.termin + WINDOW_AFTER_MIN * 60)
  dedupBy (fun w => (w.ucionica, w.termin)) r2

/-- Exit window builder (`build_windows_for_time_logout`): one row per distinct
location having a slot at the target time, with `window_start` the earliest
such slot, and `window_end` the first strictly later slot of the whole
schedule, or 23:59:59 of day `d` when none exists. -/
def build_windows_for_time_logout (raspored : List RasporedRow) (hhmm : Int)
    (d : Int) : List Window :=
  let r_sel := raspored.filter (selMatch hhmm)
  match listMin (r_sel.map (fun row => row.termin)) with
  | none => []
  | some start_ts =>
    let next_ts := minAbove (raspored.map (fun row => row.termin)) start_ts
    let end_ts := next_ts.getD (day_end d)
    (dedupBy (fun row => row.ucionica) r_sel).map fun row =>
      Window.mk row.ucionica start_ts start_ts end_ts

/-- Does the directory row match the card (`merge(k, on="uid_kartice")`)? -/
def karMatch (uid : Str) (kr : KarticeRow) : Bool :=
  decide (kr.uid_kartice = uid)

/-- Does the window row match the location (`merge(windows, on="ucionica")`)? -/
def roomMatch (room : Str) (w : Window) : Bool :=
  decide (w.ucionica = room)

/-- Left merge of the event frame with the directory
(`df.merge(k, on="uid_kartice", how="left")`): every event row is kept; a row
with no directory match carries `none` as its holder. -/
def mergedK (log_df : List LogRow) (kartice : List KarticeRow) :
    List (LogRow × Option Str) :=
  log_df.flatMap fun e =>
    match kartice.filter (karMatch e.uid_kartice) with
    | [] => [(e, none)]
    | ms => ms.map fun kr => (e, some kr.cuvar)

/-- One joined row from an event row (with resolved holder) and a window row. -/
def mkJ (ec : LogRow × Option Str) (w : Window) : JRow :=
  JRow.mk ec.1.time ec.1.uid_kartice ec.1.ucionica ec.2
    w.termin w.window_start w.window_end

/-- Containment test of the matcher
(`(j["time"] >= j["window_start"]) & (j["time"] < j["window_end"])`). -/
def inWin (j : JRow) : Bool :=
  decide (j.window_start ≤ j.time ∧ j.time < j.window_end)

/-- Distance of the event to the slot (`(j["time"] - j["termin"]).abs()`). -/
def delta (j : JRow) : Nat := (j.time - j.termin).natAbs

/-- Lexicographic comparison of two-column sort keys, as `sort_values` orders
rows: strictly smaller first column, or equal first column and `≤` second. -/
def lex2Le {A B : Type} [LinearOrder A] [LinearOrder B] (x y : A × B) : Prop :=
  x.1 < y.1 ∨ (x.1 = y.1 ∧ x.2 ≤ y.2)

/-- Lexicographic comparison of three-column sort keys. -/
def lex3Le {A B C : Type} [LinearOrder A] [LinearOrder B] [LinearOrder C]
    (x y : A × B × C) : Prop :=
  x.1 < y.1 ∨ (x.1 = y.1 ∧ lex2Le x.2 y.2)

/-- Lexicographic comparison of four-column sort keys. -/
def lex4Le {A B C D : Type} [LinearOrder A] [LinearOrder B] [LinearOrder C]
    [LinearOrder D] (x y : A × B × C × D) : Prop :=
  x.1 < y.1 ∨ (x.1 = y.1 ∧ lex3Le x.2 y.2)

instance {A B : Type} [LinearOrder A] [LinearOrder B] :
    DecidableRel (lex2Le (A := A) (B := B)) := fun x y =>
  inferInstanceAs (Decidable (x.1 < y.1 ∨ (x.1 = y.1 ∧ x.2 ≤ y.2)))

instance {A B C : Type} [LinearOrder A] [LinearOrder B] [LinearOrder C] :
    DecidableRel (lex3Le (A := A) (B := B) (C := C)) := fun x y =>
  inferInstanceAs (Decidable (x.1 < y.1 ∨ (x.1 = y.1 ∧ lex2Le x.2 y.2)))

instance {A B C D : Type} [LinearOrder A] [LinearOrder B] [LinearOrder C]
    [LinearOrder D] : DecidableRel (lex4Le (A := A) (B := B) (C := C) (D := D)) :=
  fun x y => inferInstanceAs (Decidable (x.1 < y.1 ∨ (x.1 = y.1 ∧ lex3Le x.2 y.2)))

/-- The deduplication key of the matcher
(`subset=["time","ucionica","uid_kartice"]`). -/
def key3 (x : JRow) : Int × Str × Str := (x.time, x.ucionica, x.uid_kartice)

/-- The full sort-key tuple of a joined row. -/
def jkey (x : JRow) : Int × Str × Nat := (x.time, x.ucionica, delta x)

/-- The sort key order of `sort_values(["time","ucionica","delta"])`:
lexicographic total preorder on the column triple. -/
def jkeyLe (a b : JRow) : Prop := lex3Le (jkey a) (jkey b)

instance : DecidableRel jkeyLe := fun a b =>
  inferInstanceAs (Decidable (lex3Le (jkey a) (jkey b)))

/-- The key order of the final `sort_values(["ucionica","vrijeme"])`. -/
def outLe (a b : OutRow) : Prop :=
  lex2Le (a.ucionica, a.vrijeme) (b.ucionica, b.vrijeme)

instance : DecidableRel outLe := fun a b =>
  inferInstanceAs (Decidable (lex2Le (a.ucionica, a.vrijeme) (b.ucionica, b.vrijeme)))

/-- Joined frame of the matcher: left merge with the directory, then inner
merge with the windows on `ucionica` (left order preserved; per left row the
matches appear in window-frame order). -/
def joinedJ (log_df : List LogRow) (windows : List Window)
    (kartice : List KarticeRow) : List JRow :=
  (mergedK log_df kartice).flatMap fun ec =>
    (windows.filter (roomMatch ec.1.ucionica)).map (mkJ ec)

/-- Candidate rows of the matcher: joined rows passing the containment test. -/
def candsJ (log_df : List LogRow) (windows : List Window)
    (kartice : List KarticeRow) : List JRow :=
  (joinedJ log_df windows kartice).filter inWin

/-- Projection of a deduplicated joined row onto the output columns. -/
def toOut (x : JRow) : OutRow :=
  OutRow.mk x.ucionica x.time x.uid_kartice x.cuvar x.termin

/-- The event-window matcher (`assign_logs_to_windows`): empty gate, left merge
with the directory, inner merge with the windows, containment filter, stable
sort by `(time, ucionica, delta)`, first-kept deduplication by
`(time, ucionica, uid_kartice)`, projection, final stable sort by
`(ucionica, vrijeme)`. -/
def assign_logs_to_windows (log_df : List LogRow) (windows : List Window)
    (kartice : List KarticeRow) : List OutRow :=
  if log_df.isEmpty || windows.isEmpty then []
  else
    List.insertionSort outLe
      ((dedupBy key3
        (List.insertionSort jkeyLe (candsJ log_df windows kartice))).map toOut)

/-- Characters accepted by the label-prefix pattern `^([A-Za-zČĆŽŠĐ]+)`. -/
def isPrefChar (c : Char) : Bool :=
  decide ('A' ≤ c ∧ c ≤ 'Z') || decide ('a' ≤ c ∧ c ≤ 'z') ||
    decide (c = 'Č') || decide (c = 'Ć') || decide (c = 'Ž') ||
    decide (c = 'Š') || decide (c = 'Đ')

/-- Leading alphabetic run of the label (`str.extract(r"^([A-Za-zČĆŽŠĐ]+)")`,
with `fillna("")`). -/
def natPref (s : Str) : Str := s.takeWhile isPrefChar

/-- First embedded run of digits of the label (`str.extract(r"(\d+)")`). -/
def firstDigits : Str → Str
  | [] => []
  | c :: cs => if c.isDigit then c :: cs.takeWhile Char.isDigit else firstDigits cs

/-- Numeric value of the first digit run, `0` when there is none
(`pd.to_numeric(...).fillna(0).astype(int)`). -/
def natNum (s : Str) : Int :=
  ((firstDigits s).foldl (fun n c => n * 10 + (c.toNat - '0'.toNat)) 0 : Nat)

/-- A row of a frame passed to `sort_rooms_natural`: the label column and the
values of the `extra_order` columns. -/
structure SRow where
  ucionica : Str
  extra : List Str
deriving DecidableEq

/-- The sort-key tuple of `sort_rooms_natural`:
(alphabetic prefix, first digit run, secondary columns, original label). -/
def sKey (r : SRow) : Str × Int × List Str × Str :=
  (natPref r.ucionica, natNum r.ucionica, r.extra, r.ucionica)

/-- The key order of `sort_values(["__pref","__num"] + extra_order + [col])`:
lexicographic on (prefix, number, secondary columns, label). -/
def sLe (a b : SRow) : Prop := lex4Le (sKey a) (sKey b)

instance : DecidableRel sLe := fun a b =>
  inferInstanceAs (Decidable (lex4Le (sKey a) (sKey b)))

/-- The natural order sorter (`sort_rooms_natural`); `hasCol` models the test
`col not in df.columns`, on which (as on empty input) the frame is returned
unchanged. -/
def sort_rooms_natural (hasCol : Bool) (df : List SRow) : List SRow :=
  if df.isEmpty || !hasCol then df else List.insertionSort sLe df

/-- Page stepper (`_next_page`): `0` when there is at most one page, else the
next page modulo the page count; `curr or 0` is `Option.getD`. -/
def _next_page (curr : Option Nat) (total : Nat) : Nat :=
  if total ≤ 1 then 0 else (curr.getD 0 + 1) % total

/-- Python `a or b` on page sizes, where `None` and `0` are falsy. -/
def or_falsy (a : Option Nat) (b : Nat) : Nat :=
  match a with
  | none => b
  | some v => if v = 0 then b else v

/-- One tick of the entry pager (`rotate_pages_in`): `reset` models a trigger
from the date, slot, or page-size filter; `active` models
`is_in_login_autopage_window`; otherwise the page advances by `_next_page`
with `total = max 1 (ceil n / ps)` and `ps = page_size_tbl or page_size_ctrl or 12`. -/
def rotate_pages_in (reset : Bool) (active : Bool) (curr : Option Nat)
    (data_len : Nat) (page_size_tbl page_size_ctrl : Option Nat) : Nat :=
  if reset then 0
  else if !active then curr.getD 0
  else
    let ps := or_falsy page_size_tbl (or_falsy page_size_ctrl 12)
    let total := max 1 ((data_len + ps - 1) / ps)
    _next_page curr total

/-! Order facts about the lexicographic key comparisons. -/

theorem lex2Le_of_eq {A B : Type} [LinearOrder A] [LinearOrder B]
    {x y : A × B} (h : x = y) : lex2Le x y :=
  Or.inr ⟨congrArg Prod.fst h, le_of_eq (congrArg Prod.snd h)⟩

theorem lex2Le_total {A B : Type} [LinearOrder A] [LinearOrder B]
    (x y : A × B) : lex2Le x y ∨ lex2Le y x := by
  rcases lt_trichotomy x.1 y.1 with h | h | h
  · exact Or.inl (Or.inl h)
  · rcases le_total x.2 y.2 with h2 | h2
    · exact Or.inl (Or.inr ⟨h, h2⟩)
    · exact Or.inr (Or.inr ⟨h.symm, h2⟩)
  · exact Or.inr (Or.inl h)

theorem lex2Le_trans {A B : Type} [LinearOrder A] [LinearOrder B]
    {x y z : A × B} (hxy : lex2Le x y) (hyz : lex2Le y z) : lex2Le x z := by
  rcases hxy with h | ⟨e, h⟩
  · rcases hyz with h' | ⟨e', h'⟩
    · exact Or.inl (h.trans h')
    · exact Or.inl (lt_of_lt_of_le h (le_of_eq e'))
  · rcases hyz with h' | ⟨e', h'⟩
    · exact Or.inl (lt_of_le_of_lt (le_of_eq e) h')
    · exact Or.inr ⟨e.trans e', h.trans h'⟩

theorem lex2Le_antisymm {A B : Type} [LinearOrder A] [LinearOrder B]
    {x y : A × B} (hxy : lex2Le x y) (hyx : lex2Le y x) : x = y := by
  rcases hxy with h | ⟨e, h⟩
  · rcases hyx with h' | ⟨e', h'⟩
    · exact absurd h' (lt_asymm h)
    · exact absurd e' (ne_of_gt h)
  · rcases hyx with h' | ⟨e', h'⟩
    · exact absurd h' (e ▸ lt_irrefl x.1)
    · exact Prod.ext_iff.mpr ⟨e, le_antisymm h h'⟩

theorem lex3Le_of_eq {A B C : Type} [LinearOrder A] [LinearOrder B] [LinearOrder C]
    {x y : A × B × C} (h : x = y) : lex3Le x y :=
  Or.inr ⟨congrArg Prod.fst h, lex2Le_of_eq (congrArg Prod.snd h)⟩

theorem lex3Le_total {A B C : Type} [LinearOrder A] [LinearOrder B] [LinearOrder C]
    (x y : A × B × C) : lex3Le x y ∨ lex3Le y x := by
  rcases lt_trichotomy x.1 y.1 with h | h | h
  · exact Or.inl (Or.inl h)
  · rcases lex2Le_total x.2 y.2 with h2 | h2
    · exact Or.inl (Or.inr ⟨h, h2⟩)
    · exact Or.inr (Or.inr ⟨h.symm, h2⟩)
  · exact Or.inr (Or.inl h)

theorem lex3Le_trans {A B C : Type} [LinearOrder A] [LinearOrder B] [LinearOrder C]
    {x y z : A × B × C} (hxy : lex3Le x y) (hyz : lex3Le y z) : lex3Le x z := by
  rcases hxy with h | ⟨e, h⟩
  · rcases hyz with h' | ⟨e', h'⟩
    · exact Or.inl (h.trans h')
    · exact Or.inl (lt_of_lt_of_le h (le_of_eq e'))
  · rcases hyz with h' | ⟨e', h'⟩
    · exact Or.inl (lt_of_le_of_lt (le_of_eq e) h')
    · exact Or.inr ⟨e.trans e', lex2Le_trans h h'⟩

theorem lex3Le_antisymm {A B C : Type} [LinearOrder A] [LinearOrder B] [LinearOrder C]
    {x y : A × B × C} (hxy : lex3Le x y) (hyx : lex3Le y x) : x = y := by
  rcases hxy with h | ⟨e, h⟩
  · rcases hyx with h' | ⟨e', h'⟩
    · exact absurd h' (lt_asymm h)
    · exact absurd e' (ne_of_gt h)
  · rcases hyx with h' | ⟨e', h'⟩
    · exact absurd h' (e ▸ lt_irrefl x.1)
    · exact Prod.ext_iff.mpr ⟨e, lex2Le_antisymm h h'⟩

theorem lex4Le_of_eq {A B C D : Type} [LinearOrder A] [LinearOrder B] [LinearOrder C]
    [LinearOrder D] {x y : A × B × C × D} (h : x = y) : lex4Le x y :=
  Or.inr ⟨congrArg Prod.fst h, lex3Le_of_eq (congrArg Prod.snd h)⟩

theorem lex4Le_total {A B C D : Type} [LinearOrder A] [LinearOrder B] [LinearOrder C]
    [LinearOrder D] (x y : A × B × C × D) : lex4Le x y ∨ lex4Le y x := by
  rcases lt_trichotomy x.1 y.1 with h | h | h
  · exact Or.inl (Or.inl h)
  · rcases lex3Le_total x.2 y.2 with h2 | h2
    · exact Or.inl (Or.inr ⟨h, h2⟩)
    · exact Or.inr (Or.inr ⟨h.symm, h2⟩)
  · exact Or.inr (Or.inl h)

theorem lex4Le_trans {A B C D : Type} [LinearOrder A] [LinearOrder B] [LinearOrder C]
    [LinearOrder D] {x y z : A × B × C × D} (hxy : lex4Le x y) (hyz : lex4Le y z) :
    lex4Le x z := by
  rcases hxy with h | ⟨e, h⟩
  · rcases hyz with h' | ⟨e', h'⟩
    · exact Or.inl (h.trans h')
    · exact Or.inl (lt_of_lt_of_le h (le_of_eq e'))
  · rcases hyz with h' | ⟨e', h'⟩
    · exact Or.inl (lt_of_le_of_lt (le_of_eq e) h')
    · exact Or.inr ⟨e.trans e', lex3Le_trans h h'⟩

theorem lex4Le_antisymm {A B C D : Type} [LinearOrder A] [LinearOrder B] [LinearOrder C]
    [LinearOrder D] {x y : A × B × C × D} (hxy : lex4Le x y) (hyx : lex4Le y x) :
    x = y := by
  rcases hxy with h | ⟨e, h⟩
  · rcases hyx with h' | ⟨e', h'⟩
    · exact absurd h' (lt_asymm h)
    · exact absurd e' (ne_of_gt h)
  · rcases hyx with h' | ⟨e', h'⟩
    · exact absurd h' (e ▸ lt_irrefl x.1)
    · exact Prod.ext_iff.mpr ⟨e, lex3Le_antisymm h h'⟩

instance : IsTotal JRow jkeyLe := ⟨fun a b => lex3Le_total (jkey a) (jkey b)⟩

instance : IsTrans JRow jkeyLe := ⟨fun _ _ _ => lex3Le_trans⟩

instance : IsTotal SRow sLe := ⟨fun a b => lex4Le_total (sKey a) (sKey b)⟩

instance : IsTrans SRow sLe := ⟨fun _ _ _ => lex4Le_trans⟩

/-! Facts about first-kept deduplication. -/

theorem dedupByAux_sublist {α κ : Type} [DecidableEq κ] (key : α → κ) :
    ∀ (seen : List κ) (l : List α), (dedupByAux key seen l).Sublist l
  | _, [] => List.Sublist.refl _
  | seen, x :: xs => by
    rw [dedupByAux]
    by_cases h : key x ∈ seen
    · rw [if_pos h]
      exact (dedupByAux_sublist key seen xs).cons x
    · rw [if_neg h]
      exact (dedupByAux_sublist key _ xs).cons₂ x

theorem dedupByAux_not_seen {α κ : Type} [DecidableEq κ] (key : α → κ) :
    ∀ (seen : List κ) (l : List α) (x : α), x ∈ dedupByAux key seen l →
      key x ∉ seen
  | seen, [], x, hx => by simp [dedupByAux] at hx
  | seen, y :: ys, x, hx => by
    rw [dedupByAux] at hx
    by_cases h : key y ∈ seen
    · rw [if_pos h] at hx
      exact dedupByAux_not_seen key seen ys x hx
    · rw [if_neg h] at hx
      rcases List.mem_cons.1 hx with rfl | hx'
      · exact h
      · have := dedupByAux_not_seen key _ ys x hx'
        exact fun hmem => this (List.mem_cons_of_mem _ hmem)

theorem dedupByAux_pairwise {α κ : Type} [DecidableEq κ] (key : α → κ) :
    ∀ (seen : List κ) (l : List α),
      (dedupByAux key seen l).Pairwise (fun a b => key a ≠ key b)
  | _, [] => List.Pairwise.nil
  | seen, y :: ys => by
    rw [dedupByAux]
    by_cases h : key y ∈ seen
    · rw [if_pos h]
      exact dedupByAux_pairwise key seen ys
    · rw [if_neg h]
      refine List.Pairwise.cons (fun b hb hkey => ?_) (dedupByAux_pairwise key _ ys)
      exact dedupByAux_not_seen key _ ys b hb (hkey ▸ List.mem_cons_self _ _)

theorem dedupByAux_image {α κ : Type} [DecidableEq κ] (key : α → κ) :
    ∀ (seen : List κ) (l : List α) (c : α), c ∈ l → key c ∉ seen →
      ∃ o ∈ dedupByAux key seen l, key o = key c
  | seen, [], c, hc, _ => absurd hc (List.not_mem_nil c)
  | seen, y :: ys, c, hc, hseen => by
    rw [dedupByAux]
    by_cases h : key y ∈ seen
    · rw [if_pos h]
      rcases List.mem_cons.1 hc with rfl | hc'
      · exact absurd h hseen
      · exact dedupByAux_image key seen ys c hc' hseen
    · rw [if_neg h]
      by_cases hcy : key c = key y
      · exact ⟨y, List.mem_cons_self _ _, hcy.symm⟩
      · rcases List.mem_cons.1 hc with rfl | hc'
        · exact absurd rfl hcy
        · obtain ⟨o, ho, hko⟩ := dedupByAux_image key (key y :: seen) ys c hc'
            (by
              intro hmem
              rcases List.mem_cons.1 hmem with h1 | h1
              · exact hcy h1
              · exact hseen h1)
          exact ⟨o, List.mem_cons_of_mem _ ho, hko⟩

theorem dedupByAux_first {α κ : Type} [DecidableEq κ] (key : α → κ) :
    ∀ (seen : List κ) (l : List α) (o : α), o ∈ dedupByAux key seen l →
      ∀ (s1 : List α) (c : α) (s2 : List α), l = s1 ++ c :: s2 → key c = key o →
        o ∈ s1 ∨ o = c
  | seen, [], o, ho, _, _, _, _, _ => by simp [dedupByAux] at ho
  | seen, y :: ys, o, ho, s1, c, s2, hsplit, hkc => by
    rw [dedupByAux] at ho
    by_cases h : key y ∈ seen
    · rw [if_pos h] at ho
      have hons := dedupByAux_not_seen key seen ys o ho
      cases s1 with
      | nil =>
        rw [List.nil_append] at hsplit
        injection hsplit with h1 h2
        subst h1
        exact absurd (hkc ▸ h) hons
      | cons a s1' =>
        rw [List.cons_append] at hsplit
        injection hsplit with h1 h2
        rcases dedupByAux_first key seen ys o ho s1' c s2 h2 hkc with h3 | h3
        · exact Or.inl (List.mem_cons_of_mem _ h3)
        · exact Or.inr h3
    · rw [if_neg h] at ho
      rcases List.mem_cons.1 ho with rfl | ho2
      · cases s1 with
        | nil =>
          rw [List.nil_append] at hsplit
          injection hsplit with h1 h2
          exact Or.inr h1
        | cons a s1' =>
          rw [List.cons_append] at hsplit
          injection hsplit with h1 h2
          exact Or.inl (h1 ▸ List.mem_cons_self _ _)
      · have hons := dedupByAux_not_seen key _ ys o ho2
        have hoy : key o ≠ key y := fun hk => hons (hk ▸ List.mem_cons_self _ _)
        cases s1 with
        | nil =>
          rw [List.nil_append] at hsplit
          injection hsplit with h1 h2
          subst h1
          exact absurd hkc.symm hoy
        | cons a s1' =>
          rw [List.cons_append] at hsplit
          injection hsplit with h1 h2
          rcases dedupByAux_first key (key y :: seen) ys o ho2 s1' c s2 h2 hkc with
            h3 | h3
          · exact Or.inl (List.mem_cons_of_mem _ h3)
          · exact Or.inr h3

theorem dedupBy_sublist {α κ : Type} [DecidableEq κ] (key : α → κ) (l : List α) :
    (dedupBy key l).Sublist l :=
  dedupByAux_sublist key [] l

theorem dedupBy_pairwise {α κ : Type} [DecidableEq κ] (key : α → κ) (l : List α) :
    (dedupBy key l).Pairwise (fun a b => key a ≠ key b) :=
  dedupByAux_pairwise key [] l

theorem dedupBy_image {α κ : Type} [DecidableEq κ] (key : α → κ) {l : List α}
    {c : α} (hc : c ∈ l) : ∃ o ∈ dedupBy key l, key o = key c :=
  dedupByAux_image key [] l c hc (List.not_mem_nil _)

theorem dedupBy_first {α κ : Type} [DecidableEq κ] (key : α → κ) {l : List α}
    {o : α} (ho : o ∈ dedupBy key l) {s1 : List α} {c : α} {s2 : List α}
    (hsplit : l = s1 ++ c :: s2) (hkc : key c = key o) : o ∈ s1 ∨ o = c :=
  dedupByAux_first key [] l o ho s1 c s2 hsplit hkc

/-! Facts about list minima. -/

theorem listMin_eq_none : ∀ {l : List Int}, listMin l = none ↔ l = []
  | [] => by simp [listMin]
  | t :: ts => by
    rw [listMin]
    cases h : listMin ts <;> simp

theorem listMin_mem : ∀ {l : List Int} {m : Int}, listMin l = some m → m ∈ l
  | [], m => by simp [listMin]
  | t :: ts, m => by
    rw [listMin]
    cases h : listMin ts with
    | none =>
      intro h2
      injection h2 with h3
      exact h3 ▸ List.mem_cons_self _ _
    | some m' =>
      intro h2
      injection h2 with h3
      rcases min_choice t m' with h4 | h4
      · exact (h3.symm.trans h4) ▸ List.mem_cons_self _ _
      · exact List.mem_cons_of_mem _ ((h3.symm.trans h4) ▸ listMin_mem h)

theorem listMin_le : ∀ {l : List Int} {m : Int}, listMin l = some m →
    ∀ x ∈ l, m ≤ x
  | [], m => by simp [listMin]
  | t :: ts, m => by
    rw [listMin]
    cases h : listMin ts with
    | none =>
      intro h2 x hx
      injection h2 with h3
      rcases List.mem_cons.1 hx with rfl | hx'
      · exact le_of_eq h3.symm
      · exact absurd (listMin_eq_none.1 h ▸ hx' : x ∈ ([] : List Int))
          (List.not_mem_nil x)
    | some m' =>
      intro h2 x hx
      injection h2 with h3
      rcases List.mem_cons.1 hx with rfl | hx'
      · exact h3 ▸ min_le_left _ _
      · exact le_trans (h3 ▸ min_le_right t m') (listMin_le h x hx')

theorem minAbove_some {l : List Int} {s m : Int} (h : minAbove l s = some m) :
    m ∈ l ∧ s < m ∧ ∀ x ∈ l, s < x → m ≤ x := by
  have hmem := listMin_mem h
  have hle := listMin_le h
  rw [List.mem_filter] at hmem
  refine ⟨hmem.1, by simpa using hmem.2, fun x hx hsx => ?_⟩
  exact hle x (List.mem_filter.2 ⟨hx, by simpa using hsx⟩)

theorem minAbove_none {l : List Int} {s : Int} (h : minAbove l s = none) :
    ∀ x ∈ l, ¬ s < x := by
  intro x hx hsx
  have : l.filter (fun t => decide (s < t)) = [] := listMin_eq_none.1 h
  have : x ∈ ([] : List Int) :=
    this ▸ List.mem_filter.2 ⟨hx, by simpa using hsx⟩
  exact absurd this (List.not_mem_nil x)

/-! Facts locating occurrences through `filter`, `map` and `flatMap`. -/

theorem filter_split {α : Type} {p : α → Bool} :
    ∀ (l t1 : List α) (x : α) (t2 : List α), l.filter p = t1 ++ x :: t2 →
      ∃ u1 u2, l = u1 ++ x :: u2 ∧ u1.filter p = t1 ∧ u2.filter p = t2
  | [], t1, x, t2 => by
    intro h
    rw [List.filter_nil] at h
    exact absurd h.symm (List.append_ne_nil_of_right_ne_nil _ (by simp))
  | a :: l', t1, x, t2 => by
    intro h
    by_cases hpa : p a
    · rw [List.filter_cons_of_pos hpa] at h
      cases t1 with
      | nil =>
        rw [List.nil_append] at h
        injection h with h1 h2
        exact ⟨[], l', by rw [List.nil_append, h1], rfl, h2⟩
      | cons b t1' =>
        rw [List.cons_append] at h
        injection h with h1 h2
        obtain ⟨u1, u2, hl, hf1, hf2⟩ := filter_split l' t1' x t2 h2
        exact ⟨a :: u1, u2, by rw [hl, List.cons_append],
          by rw [List.filter_cons_of_pos hpa, hf1, h1], hf2⟩
    · rw [List.filter_cons_of_neg hpa] at h
      obtain ⟨u1, u2, hl, hf1, hf2⟩ := filter_split l' t1 x t2 h
      exact ⟨a :: u1, u2, by rw [hl, List.cons_append],
        by rw [List.filter_cons_of_neg hpa, hf1], hf2⟩

theorem map_split {α β : Type} {f : α → β} :
    ∀ (l : List α) (b1 : List β) (y : β) (b2 : List β), l.map f = b1 ++ y :: b2 →
      ∃ c1 x c2, l = c1 ++ x :: c2 ∧ f x = y ∧ c1.map f = b1 ∧ c2.map f = b2
  | [], b1, y, b2 => by
    intro h
    rw [List.map_nil] at h
    exact absurd h.symm (List.append_ne_nil_of_right_ne_nil _ (by simp))
  | a :: l', b1, y, b2 => by
    intro h
    rw [List.map_cons] at h
    cases b1 with
    | nil =>
      rw [List.nil_append] at h
      injection h with h1 h2
      exact ⟨[], a, l', rfl, h1, rfl, h2⟩
    | cons b b1' =>
      rw [List.cons_append] at h
      injection h with h1 h2
      obtain ⟨c1, x, c2, hl, hfx, hm1, hm2⟩ := map_split l' b1' y b2 h2
      exact ⟨a :: c1, x, c2, by rw [hl, List.cons_append],
        hfx, by rw [List.map_cons, hm1, h1], hm2⟩

theorem flatMap_split {α β : Type} {f : α → List β} :
    ∀ (l : List α) (v1 : List β) (x : β) (v2 : List β),
      l.flatMap f = v1 ++ x :: v2 →
      ∃ m1 a m2 b1 b2, l = m1 ++ a :: m2 ∧ f a = b1 ++ x :: b2 ∧
        v1 = m1.flatMap f ++ b1
  | [], v1, x, v2 => by
    intro h
    rw [List.flatMap_nil] at h
    exact absurd h.symm (List.append_ne_nil_of_right_ne_nil _ (by simp))
  | a :: l', v1, x, v2 => by
    intro h
    rw [List.flatMap_cons] at h
    rcases List.append_eq_append_iff.1 h with ⟨a', ha1, ha2⟩ | ⟨c', hc1, hc2⟩
    · obtain ⟨m1, aa, m2, b1, b2, hl, hfa, hv1⟩ :=
        flatMap_split l' a' x v2 ha2
      refine ⟨a :: m1, aa, m2, b1, b2, by rw [hl, List.cons_append], hfa, ?_⟩
      rw [ha1, hv1, List.flatMap_cons, List.append_assoc]
    · cases c' with
      | nil =>
        rw [List.append_nil] at hc1
        obtain ⟨m1, aa, m2, b1, b2, hl, hfa, hv1⟩ :=
          flatMap_split l' [] x v2 hc2.symm
        refine ⟨a :: m1, aa, m2, b1, b2, by rw [hl, List.cons_append], hfa, ?_⟩
        rw [List.flatMap_cons, List.append_assoc, ← hv1, List.append_nil, hc1]
      | cons cx c2' =>
        rw [List.cons_append] at hc2
        injection hc2 with h1 h2
        exact ⟨[], a, l', v1, c2', rfl, by rw [hc1, h1], by simp⟩

theorem two_split {α : Type} :
    ∀ (pre : List α) (w : α) (post d1 : List α) (x : α) (d2 : List α),
      pre ++ w :: post = d1 ++ x :: d2 → x ∉ pre → x ≠ w →
      ∃ d1', d1 = pre ++ w :: d1'
  | [], w, post, d1, x, d2 => by
    intro h hpre hxw
    cases d1 with
    | nil =>
      rw [List.nil_append] at h
      injection h with h1 h2
      exact absurd h1.symm hxw
    | cons a d1'' =>
      rw [List.nil_append, List.cons_append] at h
      injection h with h1 h2
      exact ⟨d1'', by rw [List.nil_append, ← h1]⟩
  | p :: pre', w, post, d1, x, d2 => by
    intro h hpre hxw
    cases d1 with
    | nil =>
      rw [List.nil_append] at h
      rw [List.cons_append] at h
      injection h with h1 h2
      exact absurd (h1 ▸ List.mem_cons_self _ _) hpre
    | cons a d1'' =>
      rw [List.cons_append, List.cons_append] at h
      injection h with h1 h2
      obtain ⟨d1', hd⟩ := two_split pre' w post d1'' x d2 h2
        (fun hm => hpre (List.mem_cons_of_mem _ hm)) hxw
      exact ⟨d1', by rw [hd, h1, List.cons_append]⟩

theorem exists_first_split {α : Type} [DecidableEq α] {a : α} :
    ∀ {l : List α}, a ∈ l → ∃ s t, l = s ++ a :: t ∧ a ∉ s
  | [], h => absurd h (List.not_mem_nil a)
  | b :: l', h => by
    by_cases hab : a = b
    · exact ⟨[], l', by rw [List.nil_append, hab], List.not_mem_nil a⟩
    · rcases List.mem_cons.1 h with h1 | h1
      · exact absurd h1 hab
      · obtain ⟨s, t, hl, hns⟩ := exists_first_split h1
        exact ⟨b :: s, t, by rw [hl, List.cons_append], by
          intro hmem
          rcases List.mem_cons.1 hmem with h2 | h2
          · exact hab h2
          · exact hns h2⟩

theorem exists_first_pred {α : Type} {p : α → Prop} :
    ∀ (l : List α), (∃ x ∈ l, p x) →
      ∃ s w t, l = s ++ w :: t ∧ p w ∧ ∀ y ∈ s, ¬ p y
  | [], h => absurd h (by simp)
  | b :: l', h => by
    by_cases hb : p b
    · exact ⟨[], b, l', rfl, hb, by simp⟩
    · obtain ⟨x, hx, hpx⟩ := h
      rcases List.mem_cons.1 hx with rfl | hx'
      · exact absurd hpx hb
      · obtain ⟨s, w, t, hl, hpw, hs⟩ := exists_first_pred l' ⟨x, hx', hpx⟩
        refine ⟨b :: s, w, t, by rw [hl, List.cons_append], hpw, ?_⟩
        intro y hy
        rcases List.mem_cons.1 hy with rfl | hy'
        · exact hb
        · exact hs y hy'

theorem filter_flatMap_comm {α β : Type} (p : β → Bool) (f : α → List β) :
    ∀ (l : List α), (l.flatMap f).filter p = l.flatMap fun a => (f a).filter p
  | [] => by simp
  | a :: l' => by
    rw [List.flatMap_cons, List.filter_append, List.flatMap_cons,
      filter_flatMap_comm p f l']

/-! Stability of the embedded sort: filtering the sorted list to one class of
the sort key gives the same list as filtering the input, because
`orderedInsert` never crosses an element of the same key. -/

theorem filter_class_orderedInsert {α κ : Type} [DecidableEq κ]
    (le : α → α → Prop) [DecidableRel le] (key : α → κ)
    (hrefl : ∀ a b : α, key a = key b → le a b) (K : κ) (a : α) :
    ∀ l : List α,
      (List.orderedInsert le a l).filter (fun x => decide (key x = K)) =
        if key a = K then a :: l.filter (fun x => decide (key x = K))
        else l.filter (fun x => decide (key x = K))
  | [] => by
    rw [List.orderedInsert_nil]
    by_cases hk : key a = K
    · rw [if_pos hk]
      simp [hk]
    · rw [if_neg hk]
      simp [hk]
  | b :: l' => by
    rw [List.orderedInsert]
    by_cases hle : le a b
    · rw [if_pos hle]
      by_cases hk : key a = K
      · rw [if_pos hk, List.filter_cons_of_pos (by simpa using hk)]
      · rw [if_neg hk, List.filter_cons_of_neg (by simpa using hk)]
    · rw [if_neg hle]
      by_cases hk : key a = K
      · rw [if_pos hk]
        have hkb : ¬ key b = K := fun hkb =>
          hle (hrefl a b (hk.trans hkb.symm))
        rw [List.filter_cons_of_neg (by simpa using hkb),
          List.filter_cons_of_neg (by simpa using hkb),
          filter_class_orderedInsert le key hrefl K a l', if_pos hk]
      · rw [if_neg hk]
        by_cases hkb : key b = K
        · rw [List.filter_cons_of_pos (by simpa using hkb),
            List.filter_cons_of_pos (by simpa using hkb),
            filter_class_orderedInsert le key hrefl K a l', if_neg hk]
        · rw [List.filter_cons_of_neg (by simpa using hkb),
            List.filter_cons_of_neg (by simpa using hkb),
            filter_class_orderedInsert le key hrefl K a l', if_neg hk]

theorem filter_class_insertionSort {α κ : Type} [DecidableEq κ]
    (le : α → α → Prop) [DecidableRel le] (key : α → κ)
    (hrefl : ∀ a b : α, key a = key b → le a b) (K : κ) :
    ∀ l : List α,
      (List.insertionSort le l).filter (fun x => decide (key x = K)) =
        l.filter (fun x => decide (key x = K))
  | [] => rfl
  | a :: l' => by
    rw [List.insertionSort, filter_class_orderedInsert le key hrefl K a,
      filter_class_insertionSort le key hrefl K l']
    by_cases hk : key a = K
    · rw [if_pos hk, List.filter_cons_of_pos (by simpa using hk)]
    · rw [if_neg hk, List.filter_cons_of_neg (by simpa using hk)]

/-! Facts about the matcher pipeline. -/

theorem jkeyLe_refl (a : JRow) : jkeyLe a a := lex3Le_of_eq rfl

theorem jkey_refl_le : ∀ a b : JRow, jkey a = jkey b → jkeyLe a b :=
  fun _ _ h => lex3Le_of_eq h

theorem key3_fields {a b : JRow} (h : key3 a = key3 b) :
    a.time = b.time ∧ a.ucionica = b.ucionica ∧ a.uid_kartice = b.uid_kartice :=
  ⟨congrArg Prod.fst h, congrArg (fun p => p.2.1) h, congrArg (fun p => p.2.2) h⟩

theorem jkeyLe_delta {a b : JRow} (hk : key3 a = key3 b) (h : jkeyLe a b) :
    delta a ≤ delta b := by
  obtain ⟨ht, hu, _⟩ := key3_fields hk
  simp only [jkeyLe, lex3Le, lex2Le, jkey] at h
  rcases h with h1 | ⟨_, h2⟩
  · exact absurd (ht ▸ h1) (lt_irrefl _)
  · rcases h2 with h3 | ⟨_, h4⟩
    · exact absurd (hu ▸ h3) (lt_irrefl _)
    · exact h4

theorem mergedK_mem_log {log_df : List LogRow} {kartice : List KarticeRow}
    {ec : LogRow × Option Str} (h : ec ∈ mergedK log_df kartice) :
    ec.1 ∈ log_df := by
  unfold mergedK at h
  rw [List.mem_flatMap] at h
  obtain ⟨e, he, hec⟩ := h
  cases hms : kartice.filter (karMatch e.uid_kartice) with
  | nil =>
    rw [hms] at hec
    simp only [List.mem_singleton] at hec
    rw [hec]
    exact he
  | cons kr ms' =>
    rw [hms] at hec
    rw [List.mem_map] at hec
    obtain ⟨kr', _, hec'⟩ := hec
    rw [← hec']
    exact he

theorem mergedK_none_of_no_match {log_df : List LogRow} {kartice : List KarticeRow}
    {ec : LogRow × Option Str} (h : ec ∈ mergedK log_df kartice)
    (hno : ∀ kr ∈ kartice, kr.uid_kartice ≠ ec.1.uid_kartice) : ec.2 = none := by
  unfold mergedK at h
  rw [List.mem_flatMap] at h
  obtain ⟨e, he, hec⟩ := h
  cases hms : kartice.filter (karMatch e.uid_kartice) with
  | nil =>
    rw [hms] at hec
    simp only [List.mem_singleton] at hec
    rw [hec]
  | cons kr ms' =>
    rw [hms] at hec
    rw [List.mem_map] at hec
    obtain ⟨kr', hkr', hec'⟩ := hec
    have hmem : kr' ∈ kartice.filter (karMatch e.uid_kartice) := by
      rw [hms]; exact hkr'
    rw [List.mem_filter] at hmem
    have huid : kr'.uid_kartice = e.uid_kartice := by
      simpa [karMatch] using hmem.2
    have he1 : ec.1 = e := by rw [← hec']
    exact absurd (huid.trans (congrArg LogRow.uid_kartice he1).symm)
      (hno kr' hmem.1)

theorem mergedK_exists {log_df : List LogRow} {kartice : List KarticeRow}
    {e : LogRow} (he : e ∈ log_df) :
    ∃ copt, ((e, copt) : LogRow × Option Str) ∈ mergedK log_df kartice := by
  unfold mergedK
  cases hms : kartice.filter (karMatch e.uid_kartice) with
  | nil =>
    refine ⟨none, List.mem_flatMap.2 ⟨e, he, ?_⟩⟩
    rw [hms]
    simp
  | cons kr ms' =>
    refine ⟨some kr.cuvar, List.mem_flatMap.2 ⟨e, he, ?_⟩⟩
    rw [hms]
    exact List.mem_map.2 ⟨kr, List.mem_cons_self _ _, rfl⟩

theorem mergedK_intro_none {log_df : List LogRow} {kartice : List KarticeRow}
    {e : LogRow} (he : e ∈ log_df)
    (hno : ∀ kr ∈ kartice, kr.uid_kartice ≠ e.uid_kartice) :
    ((e, none) : LogRow × Option Str) ∈ mergedK log_df kartice := by
  unfold mergedK
  have hms : kartice.filter (karMatch e.uid_kartice) = [] := by
    rw [List.filter_eq_nil_iff]
    intro kr hkr
    simp only [karMatch, decide_eq_true_eq]
    exact hno kr hkr
  refine List.mem_flatMap.2 ⟨e, he, ?_⟩
  rw [hms]
  simp

theorem candsJ_provenance {log_df : List LogRow} {windows : List Window}
    {kartice : List KarticeRow} {c : JRow} (h : c ∈ candsJ log_df windows kartice) :
    inWin c = true ∧ ∃ ec ∈ mergedK log_df kartice, ∃ w ∈ windows,
      roomMatch ec.1.ucionica w = true ∧ mkJ ec w = c := by
  unfold candsJ joinedJ at h
  rw [List.mem_filter] at h
  refine ⟨h.2, ?_⟩
  have h1 := h.1
  rw [List.mem_flatMap] at h1
  obtain ⟨ec, hec, hc⟩ := h1
  rw [List.mem_map] at hc
  obtain ⟨w, hw, hmk⟩ := hc
  rw [List.mem_filter] at hw
  exact ⟨ec, hec, w, hw.1, hw.2, hmk⟩

theorem candsJ_intro {log_df : List LogRow} {windows : List Window}
    {kartice : List KarticeRow} {ec : LogRow × Option Str} {w : Window}
    (hec : ec ∈ mergedK log_df kartice) (hw : w ∈ windows)
    (hroom : w.ucionica = ec.1.ucionica) (hin : inWin (mkJ ec w) = true) :
    mkJ ec w ∈ candsJ log_df windows kartice := by
  unfold candsJ joinedJ
  rw [List.mem_filter]
  refine ⟨?_, hin⟩
  rw [List.mem_flatMap]
  refine ⟨ec, hec, List.mem_map.2 ⟨w, List.mem_filter.2 ⟨hw, ?_⟩, rfl⟩⟩
  simpa [roomMatch] using hroom

theorem assign_mem {log_df : List LogRow} {windows : List Window}
    {kartice : List KarticeRow} {o : OutRow}
    (h : o ∈ assign_logs_to_windows log_df windows kartice) :
    ∃ j, j ∈ dedupBy key3
        (List.insertionSort jkeyLe (candsJ log_df windows kartice)) ∧
      toOut j = o := by
  unfold assign_logs_to_windows at h
  by_cases hempty : log_df.isEmpty || windows.isEmpty
  · rw [if_pos hempty] at h
    exact absurd h (List.not_mem_nil o)
  · rw [if_neg hempty] at h
    rw [List.mem_insertionSort, List.mem_map] at h
    exact h

theorem dedup_mem_cands {log_df : List LogRow} {windows : List Window}
    {kartice : List KarticeRow} {j : JRow}
    (hj : j ∈ dedupBy key3
      (List.insertionSort jkeyLe (candsJ log_df windows kartice))) :
    j ∈ candsJ log_df windows kartice :=
  (List.mem_insertionSort jkeyLe).1 ((dedupBy_sublist key3 _).mem hj)

theorem dedup_min {log_df : List LogRow} {windows : List Window}
    {kartice : List KarticeRow} {j : JRow}
    (hj : j ∈ dedupBy key3
      (List.insertionSort jkeyLe (candsJ log_df windows kartice))) :
    ∀ c ∈ candsJ log_df windows kartice, key3 c = key3 j → jkeyLe j c := by
  intro c hc hkc
  have hcmem : c ∈ List.insertionSort jkeyLe (candsJ log_df windows kartice) :=
    (List.mem_insertionSort jkeyLe).2 hc
  obtain ⟨s1, s2, hsplit⟩ := List.append_of_mem hcmem
  rcases dedupBy_first key3 hj hsplit hkc with h1 | h1
  · have hsorted : List.Sorted jkeyLe (s1 ++ c :: s2) := by
      rw [← hsplit]
      exact List.sorted_insertionSort jkeyLe _
    exact (List.pairwise_append.1 hsorted).2.2 j h1 c (List.mem_cons_self _ _)
  · rw [h1]
    exact jkeyLe_refl c

theorem block_earlier {ws pre post : List Window} {w : Window}
    {ec : LogRow × Option Str} {o : JRow}
    (hws : ws = pre ++ w :: post)
    (hroomw : roomMatch ec.1.ucionica w = true)
    (hinw : inWin (mkJ ec w) = true)
    (hgen : ∀ x : Window, mkJ ec x = o → x.ucionica = ec.1.ucionica →
      x ∉ pre ∧ x ≠ w) :
    ∀ (b1 b2 : List JRow),
      ((ws.filter (roomMatch ec.1.ucionica)).map (mkJ ec)).filter inWin =
        b1 ++ o :: b2 →
      mkJ ec w ∈ b1 := by
  intro b1 b2 hsplit
  obtain ⟨g1, g2, hg, hgf1, _⟩ := filter_split _ b1 o b2 hsplit
  obtain ⟨c1, x, c2, hc, hfx, hm1, _⟩ := map_split _ g1 o g2 hg
  have hxmem : x ∈ ws.filter (roomMatch ec.1.ucionica) := by
    rw [hc]
    exact List.mem_append.2 (Or.inr (List.mem_cons_self _ _))
  have hxroom : x.ucionica = ec.1.ucionica := by
    simpa [roomMatch] using (List.mem_filter.1 hxmem).2
  obtain ⟨d1, d2, hd, hdf1, _⟩ := filter_split _ c1 x c2 hc
  have hx := hgen x hfx hxroom
  obtain ⟨d1', hd1⟩ := two_split pre w post d1 x d2 (hws.symm.trans hd) hx.1 hx.2
  have hw_d1 : w ∈ d1 := by
    rw [hd1]
    exact List.mem_append.2 (Or.inr (List.mem_cons_self _ _))
  have hw_c1 : w ∈ c1 := by
    rw [← hdf1]
    exact List.mem_filter.2 ⟨hw_d1, hroomw⟩
  have hw_g1 : mkJ ec w ∈ g1 := by
    rw [← hm1]
    exact List.mem_map.2 ⟨w, hw_c1, rfl⟩
  rw [← hgf1]
  exact List.mem_filter.2 ⟨hw_g1, hinw⟩

theorem cands_earlier {log_df : List LogRow} {windows : List Window}
    {kartice : List KarticeRow} {o : JRow} {pre post : List Window} {w : Window}
    (hws : windows = pre ++ w :: post)
    (hroomw : w.ucionica = o.ucionica)
    (hinw : w.window_start ≤ o.time ∧ o.time < w.window_end)
    (hgen : ∀ (ec : LogRow × Option Str) (x : Window), mkJ ec x = o →
      x.ucionica = o.ucionica → x ∉ pre ∧ x ≠ w) :
    ∀ (u1 u2 : List JRow), candsJ log_df windows kartice = u1 ++ o :: u2 →
      JRow.mk o.time o.uid_kartice o.ucionica o.cuvar
        w.termin w.window_start w.window_end ∈ u1 := by
  intro u1 u2 hsplit
  have hcands : candsJ log_df windows kartice =
      (mergedK log_df kartice).flatMap fun ec =>
        ((windows.filter (roomMatch ec.1.ucionica)).map (mkJ ec)).filter inWin := by
    unfold candsJ joinedJ
    exact filter_flatMap_comm inWin _ _
  rw [hcands] at hsplit
  obtain ⟨m1, ec, m2, b1, b2, _, hblk, hu1⟩ := flatMap_split _ u1 o u2 hsplit
  obtain ⟨g1, g2, hg, _, _⟩ := filter_split _ b1 o b2 hblk
  obtain ⟨c1, x, c2, _, hfx, _, _⟩ := map_split _ g1 o g2 hg
  have hroom_ec : roomMatch ec.1.ucionica w = true := by
    have hou : o.ucionica = ec.1.ucionica := by
      subst hfx
      rfl
    simpa [roomMatch] using hroomw.trans hou
  have hin_ec : inWin (mkJ ec w) = true := by
    have hot : o.time = ec.1.time := by
      subst hfx
      rfl
    simp only [inWin, mkJ, decide_eq_true_eq]
    rw [← hot]
    exact hinw
  have hou : o.ucionica = ec.1.ucionica := by
    subst hfx
    rfl
  have hblk_mem := block_earlier hws hroom_ec hin_ec
    (fun x' hx' hxr' => hgen ec x' hx' (hxr'.trans hou.symm)) b1 b2 hblk
  have hcw : mkJ ec w = JRow.mk o.time o.uid_kartice o.ucionica o.cuvar
      w.termin w.window_start w.window_end := by
    subst hfx
    rfl
  rw [hu1]
  exact List.mem_append.2 (Or.inr (hcw ▸ hblk_mem))

/-- Claim C1: every output record of the event-window matcher lies within the
half-open interval of the window it was matched against:
`window_start ≤ event_time < window_end`, for any events, windows and
directory. -/
theorem C1_containment (log_df : List LogRow) (windows : List Window)
    (kartice : List KarticeRow) :
    ∀ o ∈ assign_logs_to_windows log_df windows kartice,
      ∃ w ∈ windows, w.ucionica = o.ucionica ∧ w.termin = o.termin ∧
        w.window_start ≤ o.vrijeme ∧ o.vrijeme < w.window_end := by
  intro o ho
  obtain ⟨j, hj, hjo⟩ := assign_mem ho
  have hjc := dedup_mem_cands hj
  obtain ⟨hin, ec, hec, w, hw, hroom, hmk⟩ := candsJ_provenance hjc
  subst hjo
  subst hmk
  have hru : w.ucionica = ec.1.ucionica := by simpa [roomMatch] using hroom
  simp only [inWin, mkJ, decide_eq_true_eq] at hin
  exact ⟨w, hw, hru, rfl, hin.1, hin.2⟩

/-- Witness for C1 at a concrete input: one event at time 0 in the window
`[0, 10)` of room `A`. -/
theorem C1_containment_witness :
    ∃ w ∈ [Window.mk "A".data 0 0 10],
      w.ucionica = (OutRow.mk "A".data 0 "c".data none 0).ucionica ∧
      w.termin = (OutRow.mk "A".data 0 "c".data none 0).termin ∧
      w.window_start ≤ (OutRow.mk "A".data 0 "c".data none 0).vrijeme ∧
      (OutRow.mk "A".data 0 "c".data none 0).vrijeme < w.window_end :=
  C1_containment [⟨0, "c".data, "A".data⟩] [⟨"A".data, 0, 0, 10⟩] []
    (OutRow.mk "A".data 0 "c".data none 0) (by decide)

/-- Claim C5: no two records of the matcher output share the same triple
`(event_time, location_key, card_id)`, for any input. -/
theorem C5_uniqueness (log_df : List LogRow) (windows : List Window)
    (kartice : List KarticeRow) :
    (assign_logs_to_windows log_df windows kartice).Pairwise
      (fun a b => ¬ (a.vrijeme = b.vrijeme ∧ a.ucionica = b.ucionica ∧
        a.broj_kartice = b.broj_kartice)) := by
  unfold assign_logs_to_windows
  by_cases hempty : log_df.isEmpty || windows.isEmpty
  · rw [if_pos hempty]
    exact List.Pairwise.nil
  · rw [if_neg hempty]
    have hperm := List.perm_insertionSort outLe
      ((dedupBy key3
        (List.insertionSort jkeyLe (candsJ log_df windows kartice))).map toOut)
    refine (List.Perm.pairwise_iff
      (fun hxy hc => hxy ⟨hc.1.symm, hc.2.1.symm, hc.2.2.symm⟩) hperm).2 ?_
    rw [List.pairwise_map]
    refine (dedupBy_pairwise key3 _).imp ?_
    intro a b hne hc
    exact hne (Prod.ext_iff.mpr ⟨hc.1, Prod.ext_iff.mpr ⟨hc.2.1, hc.2.2⟩⟩)

/-- Counterexample to claim C7: with one event inside one window and an EMPTY
identity directory the matcher does not return an empty result; the record
passes through with an unresolved holder. -/
theorem C7_counterexample :
    assign_logs_to_windows [⟨0, "c".data, "A".data⟩] [⟨"A".data, 0, 0, 10⟩] [] =
      [⟨"A".data, 0, "c".data, none, 0⟩] ∧
    assign_logs_to_windows [⟨0, "c".data, "A".data⟩] [⟨"A".data, 0, 0, 10⟩] [] ≠
      [] :=
  ⟨by decide, by decide⟩

/-- Claim C7 as amended: empty events or empty windows yield the empty
(correctly-shaped, typed) result; an empty identity directory never blocks
matching and never faults — the output is produced as usual, with every
record's holder empty. -/
theorem C7_amended_empty_inputs :
    (∀ (windows : List Window) (kartice : List KarticeRow),
      assign_logs_to_windows [] windows kartice = []) ∧
    (∀ (log_df : List LogRow) (kartice : List KarticeRow),
      assign_logs_to_windows log_df [] kartice = []) ∧
    (∀ (log_df : List LogRow) (windows : List Window),
      ∀ o ∈ assign_logs_to_windows log_df windows [], o.cuvar = none) := by
  refine ⟨fun windows kartice => by simp [assign_logs_to_windows],
    fun log_df kartice => by simp [assign_logs_to_windows], ?_⟩
  intro log_df windows o ho
  obtain ⟨j, hj, hjo⟩ := assign_mem ho
  have hjc := dedup_mem_cands hj
  obtain ⟨_, ec, hec, w, hw, _, hmk⟩ := candsJ_provenance hjc
  have hnone : ec.2 = none := mergedK_none_of_no_match hec (by simp)
  subst hjo
  subst hmk
  exact hnone

/-- Witness for the amended C7 at concrete inputs. -/
theorem C7_amended_empty_inputs_witness :
    assign_logs_to_windows [] [⟨"A".data, 0, 0, 10⟩] [⟨"x".data, "c".data⟩] = [] ∧
    assign_logs_to_windows [⟨0, "c".data, "A".data⟩] [] [⟨"x".data, "c".data⟩] = [] ∧
    (OutRow.mk "A".data 0 "c".data none 0).cuvar = none :=
  ⟨C7_amended_empty_inputs.1 [⟨"A".data, 0, 0, 10⟩] [⟨"x".data, "c".data⟩],
   C7_amended_empty_inputs.2.1 [⟨0, "c".data, "A".data⟩] [⟨"x".data, "c".data⟩],
   C7_amended_empty_inputs.2.2 [⟨0, "c".data, "A".data⟩] [⟨"A".data, 0, 0, 10⟩]
     (OutRow.mk "A".data 0 "c".data none 0) (by decide)⟩

/-- Claim C8: an event whose card has no directory entry is never dropped for
that reason: if it falls in a window for its location, a record with its key
appears in the output, with an empty (unresolved) holder. -/
theorem C8_missing_card_passthrough (log_df : List LogRow)
    (windows : List Window) (kartice : List KarticeRow) (e : LogRow)
    (he : e ∈ log_df)
    (hmiss : ∀ kr ∈ kartice, kr.uid_kartice ≠ e.uid_kartice)
    (hwin : ∃ w ∈ windows, w.ucionica = e.ucionica ∧
      w.window_start ≤ e.time ∧ e.time < w.window_end) :
    ∃ o ∈ assign_logs_to_windows log_df windows kartice,
      o.vrijeme = e.time ∧ o.ucionica = e.ucionica ∧
      o.broj_kartice = e.uid_kartice ∧ o.cuvar = none := by
  obtain ⟨w, hw, hroom, hs, hlt⟩ := hwin
  have hec : ((e, none) : LogRow × Option Str) ∈ mergedK log_df kartice :=
    mergedK_intro_none he hmiss
  have hcand : mkJ (e, none) w ∈ candsJ log_df windows kartice :=
    candsJ_intro hec hw hroom
      (by simp only [inWin, mkJ, decide_eq_true_eq]; exact ⟨hs, hlt⟩)
  have hcs : mkJ (e, none) w ∈
      List.insertionSort jkeyLe (candsJ log_df windows kartice) :=
    (List.mem_insertionSort jkeyLe).2 hcand
  obtain ⟨j, hj, hkey⟩ := dedupBy_image key3 hcs
  obtain ⟨ht, hu, hid⟩ := key3_fields hkey
  have hjc := dedup_mem_cands hj
  obtain ⟨_, ec', hec', w', hw', _, hmk'⟩ := candsJ_provenance hjc
  have huid : ec'.1.uid_kartice = e.uid_kartice := by
    rw [← hmk'] at hid
    exact hid
  have hcuv : ec'.2 = none :=
    mergedK_none_of_no_match hec' (fun kr hkr h => hmiss kr hkr (h.trans huid))
  have hne1 : log_df.isEmpty = false := by
    cases log_df
    · exact absurd he (List.not_mem_nil e)
    · rfl
  have hne2 : windows.isEmpty = false := by
    cases windows
    · exact absurd hw (List.not_mem_nil w)
    · rfl
  refine ⟨toOut j, ?_, ?_, ?_, ?_, ?_⟩
  · unfold assign_logs_to_windows
    rw [hne1, hne2]
    simp only [Bool.or_self, Bool.false_eq_true, if_false]
    rw [List.mem_insertionSort]
    exact List.mem_map.2 ⟨j, hj, rfl⟩
  · exact ht
  · exact hu
  · exact hid
  · rw [← hmk']
    exact hcuv

/-- Witness for C8 at a concrete input: card `c` absent from a nonempty
directory, event at time 3 inside the window `[0, 10)` of room `A`. -/
theorem C8_missing_card_passthrough_witness :
    ∃ o ∈ assign_logs_to_windows [⟨3, "c".data, "A".data⟩]
        [⟨"A".data, 0, 0, 10⟩] [⟨"g".data, "d".data⟩],
      o.vrijeme = (LogRow.mk 3 "c".data "A".data).time ∧
      o.ucionica = (LogRow.mk 3 "c".data "A".data).ucionica ∧
      o.broj_kartice = (LogRow.mk 3 "c".data "A".data).uid_kartice ∧
      o.cuvar = none :=
  C8_missing_card_passthrough [⟨3, "c".data, "A".data⟩] [⟨"A".data, 0, 0, 10⟩]
    [⟨"g".data, "d".data⟩] (LogRow.mk 3 "c".data "A".data) (by decide)
    (by decide) ⟨⟨"A".data, 0, 0, 10⟩, by decide, by decide, by decide, by decide⟩

/-- Counterexample to claim C3: two schedule rows for the same location whose
slots share the target `HH:MM` but differ in seconds produce TWO windows for
that location (deduplication is by `(ucionica, termin)`, not by location), and
the first kept window carries the later slot 30, not the earliest slot 0. -/
theorem C3_counterexample :
    build_windows_for_time_login [⟨30, "A".data⟩, ⟨0, "A".data⟩] 0 =
      [⟨"A".data, 30, -3570, 1830⟩, ⟨"A".data, 0, -3600, 1800⟩] ∧
    ¬ (build_windows_for_time_login [⟨30, "A".data⟩, ⟨0, "A".data⟩] 0).Pairwise
      (fun w1 w2 => w1.ucionica ≠ w2.ucionica) :=
  ⟨by decide, by decide⟩

/-- Claim C3 as amended: the entry builder emits exactly one window per
distinct `(location, slot timestamp)` pair matching the target `HH:MM`
(not per location; slots differing only in seconds each keep a window), with
`window_start = slot − 60min` and `window_end = slot + 30min`. -/
theorem C3_amended (raspored : List RasporedRow) (hhmm : Int) :
    (∀ w ∈ build_windows_for_time_login raspored hhmm,
      minuteOfDay w.termin = hhmm ∧
      w.window_start = w.termin - WINDOW_BEFORE_MIN * 60 ∧
      w.window_end = w.termin + WINDOW_AFTER_MIN * 60 ∧
      ∃ row ∈ raspored, row.ucionica = w.ucionica ∧ row.termin = w.termin) ∧
    (build_windows_for_time_login raspored hhmm).Pairwise
      (fun w1 w2 => (w1.ucionica, w1.termin) ≠ (w2.ucionica, w2.termin)) ∧
    (∀ row ∈ raspored, minuteOfDay row.termin = hhmm →
      ∃ w ∈ build_windows_for_time_login raspored hhmm,
        w.ucionica = row.ucionica ∧ w.termin = row.termin) := by
  refine ⟨?_, ?_, ?_⟩
  · intro w hw
    simp only [build_windows_for_time_login] at hw
    have hw2 := List.Sublist.mem hw
      (dedupBy_sublist (fun w : Window => (w.ucionica, w.termin)) _)
    rw [List.mem_map] at hw2
    obtain ⟨row, hrow, hwe⟩ := hw2
    rw [List.mem_filter] at hrow
    subst hwe
    exact ⟨by simpa [selMatch] using hrow.2, rfl, rfl, row, hrow.1, rfl, rfl⟩
  · simp only [build_windows_for_time_login]
    exact dedupBy_pairwise _ _
  · intro row hrow hsel
    simp only [build_windows_for_time_login]
    have hmem : Window.mk row.ucionica row.termin
        (row.termin - WINDOW_BEFORE_MIN * 60) (row.termin + WINDOW_AFTER_MIN * 60) ∈
        (raspored.filter (selMatch hhmm)).map (fun row =>
          Window.mk row.ucionica row.termin
            (row.termin - WINDOW_BEFORE_MIN * 60)
            (row.termin + WINDOW_AFTER_MIN * 60)) :=
      List.mem_map.2 ⟨row, List.mem_filter.2 ⟨hrow, by simpa [selMatch] using hsel⟩,
        rfl⟩
    obtain ⟨w, hwdd, hkeq⟩ :=
      dedupBy_image (fun w : Window => (w.ucionica, w.termin)) hmem
    exact ⟨w, hwdd, congrArg Prod.fst hkeq, congrArg Prod.snd hkeq⟩

/-- Witness for the amended C3 at a concrete input. -/
theorem C3_amended_witness :
    ∃ w ∈ build_windows_for_time_login [⟨0, "A".data⟩] 0,
      w.ucionica = (RasporedRow.mk 0 "A".data).ucionica ∧
      w.termin = (RasporedRow.mk 0 "A".data).termin :=
  (C3_amended [⟨0, "A".data⟩] 0).2.2 (RasporedRow.mk 0 "A".data)
    (by decide) (by decide)

/-- Claim C4: every exit window has `window_start` equal to the earliest slot
timestamp matching the target `HH:MM`, and `window_end` equal to the least
strictly later slot timestamp anywhere in the given schedule, or 23:59:59 of
the given date when no later slot exists. -/
theorem C4_exit_window_bounds (raspored : List RasporedRow) (hhmm d : Int) :
    ∀ w ∈ build_windows_for_time_logout raspored hhmm d,
      (∃ row ∈ raspored, minuteOfDay row.termin = hhmm ∧
        row.termin = w.window_start) ∧
      (∀ row ∈ raspored, minuteOfDay row.termin = hhmm →
        w.window_start ≤ row.termin) ∧
      ((∃ row ∈ raspored, w.window_start < row.termin) →
        w.window_start < w.window_end ∧
        (∃ row ∈ raspored, row.termin = w.window_end) ∧
        ∀ row ∈ raspored, w.window_start < row.termin →
          w.window_end ≤ row.termin) ∧
      ((∀ row ∈ raspored, row.termin ≤ w.window_start) →
        w.window_end = day_end d) := by
  intro w hw
  simp only [build_windows_for_time_logout] at hw
  cases hmin : listMin ((raspored.filter (selMatch hhmm)).map fun row => row.termin)
    with
  | none => simp [hmin] at hw
  | some start_ts =>
    simp only [hmin] at hw
    obtain ⟨row0, _, hwe⟩ := List.mem_map.1 hw
    subst hwe
    dsimp only
    have hmem := listMin_mem hmin
    rw [List.mem_map] at hmem
    obtain ⟨rowm, hrowm, heq⟩ := hmem
    rw [List.mem_filter] at hrowm
    refine ⟨⟨rowm, hrowm.1, by simpa [selMatch] using hrowm.2, heq⟩, ?_, ?_, ?_⟩
    · intro row hr hsel
      exact listMin_le hmin row.termin
        (List.mem_map.2 ⟨row, List.mem_filter.2 ⟨hr, by simpa [selMatch] using hsel⟩,
          rfl⟩)
    · rintro ⟨rowx, hrx, hltx⟩
      cases hnext : minAbove (raspored.map fun row => row.termin) start_ts with
      | none =>
        exact absurd hltx
          (minAbove_none hnext rowx.termin (List.mem_map.2 ⟨rowx, hrx, rfl⟩))
      | some m =>
        obtain ⟨hm_mem, hm_gt, hm_le⟩ := minAbove_some hnext
        simp only [Option.getD_some]
        rw [List.mem_map] at hm_mem
        obtain ⟨rowe, hrowe, heqe⟩ := hm_mem
        refine ⟨hm_gt, ⟨rowe, hrowe, heqe⟩, ?_⟩
        intro row2 hr2 hlt2
        exact hm_le row2.termin (List.mem_map.2 ⟨row2, hr2, rfl⟩) hlt2
    · intro hall
      cases hnext : minAbove (raspored.map fun row => row.termin) start_ts with
      | none => rfl
      | some m =>
        obtain ⟨hm_mem, hm_gt, _⟩ := minAbove_some hnext
        rw [List.mem_map] at hm_mem
        obtain ⟨rowe, hrowe, heqe⟩ := hm_mem
        exact absurd (heqe ▸ hall rowe hrowe) (not_le.2 hm_gt)

/-- Witness for C4 at a concrete input: slots at 36000 (room A) and 43200
(room B); the exit window of room A runs from 36000 to the next slot 43200. -/
theorem C4_exit_window_bounds_witness :
    (∃ row ∈ [RasporedRow.mk 36000 "A".data, RasporedRow.mk 43200 "B".data],
      minuteOfDay row.termin = 600 ∧
      row.termin = (Window.mk "A".data 36000 36000 43200).window_start) ∧
    (∀ row ∈ [RasporedRow.mk 36000 "A".data, RasporedRow.mk 43200 "B".data],
      minuteOfDay row.termin = 600 →
      (Window.mk "A".data 36000 36000 43200).window_start ≤ row.termin) ∧
    ((∃ row ∈ [RasporedRow.mk 36000 "A".data, RasporedRow.mk 43200 "B".data],
      (Window.mk "A".data 36000 36000 43200).window_start < row.termin) →
      (Window.mk "A".data 36000 36000 43200).window_start <
        (Window.mk "A".data 36000 36000 43200).window_end ∧
      (∃ row ∈ [RasporedRow.mk 36000 "A".data, RasporedRow.mk 43200 "B".data],
        row.termin = (Window.mk "A".data 36000 36000 43200).window_end) ∧
      ∀ row ∈ [RasporedRow.mk 36000 "A".data, RasporedRow.mk 43200 "B".data],
        (Window.mk "A".data 36000 36000 43200).window_start < row.termin →
        (Window.mk "A".data 36000 36000 43200).window_end ≤ row.termin) ∧
    ((∀ row ∈ [RasporedRow.mk 36000 "A".data, RasporedRow.mk 43200 "B".data],
      row.termin ≤ (Window.mk "A".data 36000 36000 43200).window_start) →
      (Window.mk "A".data 36000 36000 43200).window_end = day_end 5) :=
  C4_exit_window_bounds
    [RasporedRow.mk 36000 "A".data, RasporedRow.mk 43200 "B".data] 600 5
    (Window.mk "A".data 36000 36000 43200) (by decide)

/-- Counterexample to claim C6: for a schedule whose only slot is exactly
23:59:59 of the given date, the exit builder emits a degenerate window with
`window_start = window_end`. -/
theorem C6_counterexample :
    ¬ ∀ w ∈ build_windows_for_time_logout [⟨86399, "A".data⟩] 1439 0,
      w.window_start < w.window_end := by decide

/-- Claim C6 as amended: every entry window satisfies
`window_start < window_end` unconditionally; every exit window satisfies it
provided every schedule timestamp is strictly before 23:59:59 of the given
date (as holds for any schedule fetched for that date except a slot at the
very last second). -/
theorem C6_amended :
    (∀ (raspored : List RasporedRow) (hhmm : Int),
      ∀ w ∈ build_windows_for_time_login raspored hhmm,
        w.window_start < w.window_end) ∧
    (∀ (raspored : List RasporedRow) (hhmm d : Int),
      (∀ row ∈ raspored, row.termin < day_end d) →
      ∀ w ∈ build_windows_for_time_logout raspored hhmm d,
        w.window_start < w.window_end) := by
  constructor
  · intro raspored hhmm w hw
    simp only [build_windows_for_time_login] at hw
    have hw2 := List.Sublist.mem hw
      (dedupBy_sublist (fun w : Window => (w.ucionica, w.termin)) _)
    rw [List.mem_map] at hw2
    obtain ⟨row, _, hwe⟩ := hw2
    subst hwe
    dsimp only
    simp only [WINDOW_BEFORE_MIN, WINDOW_AFTER_MIN]
    omega
  · intro raspored hhmm d hbound w hw
    simp only [build_windows_for_time_logout] at hw
    cases hmin : listMin ((raspored.filter (selMatch hhmm)).map fun row =>
        row.termin) with
    | none => simp [hmin] at hw
    | some start_ts =>
      simp only [hmin] at hw
      obtain ⟨row0, _, hwe⟩ := List.mem_map.1 hw
      subst hwe
      dsimp only
      cases hnext : minAbove (raspored.map fun row => row.termin) start_ts with
      | some m => simpa using (minAbove_some hnext).2.1
      | none =>
        show start_ts < day_end d
        have hmem := listMin_mem hmin
        rw [List.mem_map] at hmem
        obtain ⟨rowm, hrowm, heq⟩ := hmem
        rw [List.mem_filter] at hrowm
        exact heq ▸ hbound rowm hrowm.1

/-- Witness for the amended C6 at concrete inputs. -/
theorem C6_amended_witness :
    (Window.mk "A".data 0 (-3600) 1800).window_start <
      (Window.mk "A".data 0 (-3600) 1800).window_end ∧
    (Window.mk "A".data 36000 36000 43200).window_start <
      (Window.mk "A".data 36000 36000 43200).window_end :=
  ⟨C6_amended.1 [⟨0, "A".data⟩] 0 (Window.mk "A".data 0 (-3600) 1800) (by decide),
   C6_amended.2 [⟨36000, "A".data⟩, ⟨43200, "B".data⟩] 600 5 (by decide)
     (Window.mk "A".data 36000 36000 43200) (by decide)⟩

/-- Claim C9: the natural order sorter orders rows by (alphabetic prefix,
embedded number, secondary columns, original label) ascending — a total,
transitive, antisymmetric comparison (so a total order on rows, with the
label as the final tie-break) — the output is a sorted permutation of the
input, labels `["C10","C2","C1"]` come out as `["C1","C2","C10"]`, and the
sorter is the identity on empty input or when the label column is absent. -/
theorem C9_natural_sort :
    (∀ df : List SRow, (sort_rooms_natural true df).Perm df ∧
      List.Sorted sLe (sort_rooms_natural true df)) ∧
    (∀ a b : SRow, sLe a b ∨ sLe b a) ∧
    (∀ a b c : SRow, sLe a b → sLe b c → sLe a c) ∧
    (∀ a b : SRow, sLe a b → sLe b a → a = b) ∧
    sort_rooms_natural true
      [⟨"C10".data, []⟩, ⟨"C2".data, []⟩, ⟨"C1".data, []⟩] =
      [⟨"C1".data, []⟩, ⟨"C2".data, []⟩, ⟨"C10".data, []⟩] ∧
    (∀ hasCol : Bool, sort_rooms_natural hasCol [] = []) ∧
    (∀ df : List SRow, sort_rooms_natural false df = df) := by
  refine ⟨?_, fun a b => lex4Le_total (sKey a) (sKey b),
    fun a b c => lex4Le_trans, fun a b h1 h2 => ?_, by decide,
    fun hasCol => rfl, fun df => ?_⟩
  · intro df
    cases df with
    | nil => exact ⟨List.Perm.refl _, List.sorted_nil⟩
    | cons a l =>
      have hne : sort_rooms_natural true (a :: l) =
          List.insertionSort sLe (a :: l) := by
        simp [sort_rooms_natural]
      rw [hne]
      exact ⟨List.perm_insertionSort sLe _, List.sorted_insertionSort sLe _⟩
  · have hk := lex4Le_antisymm h1 h2
    have hl : a.ucionica = b.ucionica := congrArg (fun p => p.2.2.2) hk
    have he : a.extra = b.extra := congrArg (fun p => p.2.2.1) hk
    exact congr (congrArg SRow.mk hl) he
  · cases df <;> rfl

/-- Witness for C9 at concrete rows, discharging the order hypotheses of the
antisymmetry clause. -/
theorem C9_natural_sort_witness :
    (SRow.mk "C1".data [] : SRow) = SRow.mk "C1".data [] :=
  C9_natural_sort.2.2.2.1 (SRow.mk "C1".data []) (SRow.mk "C1".data [])
    (by decide) (by decide)

/-- Claim C10: on a rotation tick while rotation is active (no filter reset),
the page becomes `(current + 1) mod total` with
`total = max 1 (ceil (records / page_size))`; with three pages, rotating from
page 2 yields page 0; with at most one page the tick yields page 0. -/
theorem C10_pagination :
    (∀ (curr : Option Nat) (n : Nat) (tbl ctrl : Option Nat),
      rotate_pages_in false true curr n tbl ctrl =
        (curr.getD 0 + 1) % max 1 (n ⌈/⌉ or_falsy tbl (or_falsy ctrl 12))) ∧
    (∀ (curr : Option Nat) (n : Nat) (tbl ctrl : Option Nat),
      max 1 (n ⌈/⌉ or_falsy tbl (or_falsy ctrl 12)) ≤ 1 →
      rotate_pages_in false true curr n tbl ctrl = 0) ∧
    rotate_pages_in false true (some 2) 30 none (some 12) = 0 ∧
    _next_page (some 2) 3 = 0 := by
  have hmain : ∀ (curr : Option Nat) (n : Nat) (tbl ctrl : Option Nat),
      rotate_pages_in false true curr n tbl ctrl =
        (curr.getD 0 + 1) % max 1 (n ⌈/⌉ or_falsy tbl (or_falsy ctrl 12)) := by
    intro curr n tbl ctrl
    have h1 : rotate_pages_in false true curr n tbl ctrl =
        _next_page curr (max 1 ((n + or_falsy tbl (or_falsy ctrl 12) - 1) /
          or_falsy tbl (or_falsy ctrl 12))) := rfl
    rw [h1, Nat.ceilDiv_eq_add_pred_div]
    by_cases htot : max 1 ((n + or_falsy tbl (or_falsy ctrl 12) - 1) /
        or_falsy tbl (or_falsy ctrl 12)) ≤ 1
    · rw [_next_page, if_pos htot,
        le_antisymm htot (le_max_left _ _), Nat.mod_one]
    · rw [_next_page, if_neg htot]
  refine ⟨hmain, ?_, by decide, by decide⟩
  intro curr n tbl ctrl htot
  rw [hmain curr n tbl ctrl, le_antisymm htot (le_max_left _ _), Nat.mod_one]

/-- Witness for C10, discharging the at-most-one-page hypothesis at a concrete
input (5 records, page size 12). -/
theorem C10_pagination_witness :
    rotate_pages_in false true (some 0) 5 none (some 12) = 0 :=
  C10_pagination.2.1 (some 0) 5 none (some 12) (by decide)

/-- Counterexample to claim C2: an event at 15 with two windows of room `A` at
slots 30 and 0, the slot-30 window listed first (exactly what the entry
builder emits for a schedule listing the slot-30 row first). Both windows
contain the event and the distances tie (15 seconds each), but the matcher
assigns the record to slot 30 (the window listed first), not to the earlier
slot 0 as the claim requires. -/
theorem C2_tie_counterexample :
    build_windows_for_time_login [⟨30, "A".data⟩, ⟨0, "A".data⟩] 0 =
      [⟨"A".data, 30, -3570, 1830⟩, ⟨"A".data, 0, -3600, 1800⟩] ∧
    assign_logs_to_windows [⟨15, "c1".data, "A".data⟩]
      [⟨"A".data, 30, -3570, 1830⟩, ⟨"A".data, 0, -3600, 1800⟩] [] =
      [⟨"A".data, 15, "c1".data, none, 30⟩] ∧
    ((-3600 : Int) ≤ 15 ∧ (15 : Int) < 1800) ∧
    ((15 : Int) - 0).natAbs = ((15 : Int) - 30).natAbs ∧
    (0 : Int) < 30 :=
  ⟨by decide, by decide, by decide, by decide, by decide⟩

theorem dedup_first_minimal {log_df : List LogRow} {windows : List Window}
    {kartice : List KarticeRow} {j : JRow}
    (hj : j ∈ dedupBy key3
      (List.insertionSort jkeyLe (candsJ log_df windows kartice))) :
    ∃ pre w post, windows = pre ++ w :: post ∧
      w.ucionica = j.ucionica ∧ w.termin = j.termin ∧
      w.window_start ≤ j.time ∧ j.time < w.window_end ∧
      (∀ w' ∈ windows, w'.ucionica = j.ucionica → w'.window_start ≤ j.time →
        j.time < w'.window_end →
        (j.time - w.termin).natAbs ≤ (j.time - w'.termin).natAbs) ∧
      (∀ w' ∈ pre, ¬ (w'.ucionica = j.ucionica ∧ w'.window_start ≤ j.time ∧
        j.time < w'.window_end ∧
        (j.time - w'.termin).natAbs = (j.time - w.termin).natAbs)) := by
  have hjc := dedup_mem_cands hj
  obtain ⟨hin, ec₀, hec₀, w₀, hw₀, hroom₀, hmk₀⟩ := candsJ_provenance hjc
  have hju : j.ucionica = ec₀.1.ucionica := by rw [← hmk₀]; rfl
  have hjt : j.time = ec₀.1.time := by rw [← hmk₀]; rfl
  have hjid : j.uid_kartice = ec₀.1.uid_kartice := by rw [← hmk₀]; rfl
  have hjcu : j.cuvar = ec₀.2 := by rw [← hmk₀]; rfl
  have hjterm : j.termin = w₀.termin := by rw [← hmk₀]; rfl
  have hjws : j.window_start = w₀.window_start := by rw [← hmk₀]; rfl
  have hjwe : j.window_end = w₀.window_end := by rw [← hmk₀]; rfl
  simp only [inWin, decide_eq_true_eq] at hin
  have hminW : ∀ w' ∈ windows, w'.ucionica = j.ucionica →
      w'.window_start ≤ j.time → j.time < w'.window_end →
      delta j ≤ (j.time - w'.termin).natAbs := by
    intro w' hw' hru' hs' hlt'
    have hcand : mkJ ec₀ w' ∈ candsJ log_df windows kartice := by
      refine candsJ_intro hec₀ hw' (hru'.trans hju) ?_
      simp only [inWin, mkJ, decide_eq_true_eq]
      exact ⟨hjt ▸ hs', hjt ▸ hlt'⟩
    have hkeq : key3 (mkJ ec₀ w') = key3 j := by rw [← hmk₀]; rfl
    have hdle := jkeyLe_delta hkeq.symm (dedup_min hj (mkJ ec₀ w') hcand hkeq)
    calc delta j ≤ delta (mkJ ec₀ w') := hdle
      _ = (j.time - w'.termin).natAbs := by
        show (ec₀.1.time - w'.termin).natAbs = (j.time - w'.termin).natAbs
        rw [hjt]
  have hQex : ∃ x ∈ windows, x.ucionica = j.ucionica ∧
      x.window_start ≤ j.time ∧ j.time < x.window_end ∧
      (j.time - x.termin).natAbs = delta j := by
    refine ⟨w₀, hw₀, ?_, hjws ▸ hin.1, hjwe ▸ hin.2, ?_⟩
    · have hr : w₀.ucionica = ec₀.1.ucionica := by
        simpa [roomMatch] using hroom₀
      exact hr.trans hju.symm
    · show (j.time - w₀.termin).natAbs = delta j
      rw [← hjterm]
      rfl
  obtain ⟨pre, w, post, hws, hQw, hpre⟩ := exists_first_pred
    (p := fun x : Window => x.ucionica = j.ucionica ∧ x.window_start ≤ j.time ∧
      j.time < x.window_end ∧ (j.time - x.termin).natAbs = delta j)
    windows hQex
  obtain ⟨hQw1, hQw2, hQw3, hQw4⟩ := hQw
  have hterm : j.termin = w.termin := by
    by_contra hne
    have hwmem : w ∈ windows := by
      rw [hws]
      exact List.mem_append.2 (Or.inr (List.mem_cons_self _ _))
    have hcwc : mkJ ec₀ w ∈ candsJ log_df windows kartice := by
      refine candsJ_intro hec₀ hwmem (hQw1.trans hju) ?_
      simp only [inWin, mkJ, decide_eq_true_eq]
      exact ⟨hjt ▸ hQw2, hjt ▸ hQw3⟩
    have hkeq : key3 (mkJ ec₀ w) = key3 j := by rw [← hmk₀]; rfl
    have h1 : (mkJ ec₀ w).time = j.time := hjt.symm
    have h2 : (mkJ ec₀ w).ucionica = j.ucionica := hju.symm
    have h3 : delta (mkJ ec₀ w) = delta j := by
      show (ec₀.1.time - w.termin).natAbs = delta j
      rw [← hjt]
      exact hQw4
    have hjkeq : jkey (mkJ ec₀ w) = jkey j := by
      simp only [jkey]
      rw [h1, h2, h3]
    have hne_cw : mkJ ec₀ w ≠ j := by
      intro heq
      exact hne (congrArg JRow.termin heq).symm
    have hcwS : mkJ ec₀ w ∈
        List.insertionSort jkeyLe (candsJ log_df windows kartice) :=
      (List.mem_insertionSort jkeyLe).2 hcwc
    obtain ⟨s1, s2, hS, hnotin⟩ := exists_first_split hcwS
    rcases dedupBy_first key3 hj hS hkeq with hjs1 | hjeq
    case inr => exact absurd hjeq.symm hne_cw
    case inl =>
    have hSfilter := filter_class_insertionSort jkeyLe jkey jkey_refl_le (jkey j)
      (candsJ log_df windows kartice)
    have hfS : (List.insertionSort jkeyLe (candsJ log_df windows kartice)).filter
        (fun x => decide (jkey x = jkey j)) =
        s1.filter (fun x => decide (jkey x = jkey j)) ++ mkJ ec₀ w ::
          s2.filter (fun x => decide (jkey x = jkey j)) := by
      rw [hS, List.filter_append, List.filter_cons_of_pos (by simpa using hjkeq)]
    have hjf : j ∈ s1.filter (fun x => decide (jkey x = jkey j)) :=
      List.mem_filter.2 ⟨hjs1, by simp⟩
    obtain ⟨p1, p2, hp⟩ := List.append_of_mem hjf
    have hcf : (candsJ log_df windows kartice).filter
        (fun x => decide (jkey x = jkey j)) =
        p1 ++ j :: (p2 ++ mkJ ec₀ w ::
          s2.filter (fun x => decide (jkey x = jkey j))) := by
      rw [← hSfilter, hfS, hp]
      simp [List.append_assoc]
    obtain ⟨u1, u2, hu, huf1, _⟩ := filter_split _ p1 j _ hcf
    have hgen : ∀ (ec : LogRow × Option Str) (x : Window), mkJ ec x = j →
        x.ucionica = j.ucionica → x ∉ pre ∧ x ≠ w := by
      intro ec x hx hxroom
      have hxterm : x.termin = j.termin := congrArg JRow.termin hx
      have hxws : x.window_start = j.window_start := congrArg JRow.window_start hx
      have hxwe : x.window_end = j.window_end := congrArg JRow.window_end hx
      have hQx : x.ucionica = j.ucionica ∧ x.window_start ≤ j.time ∧
          j.time < x.window_end ∧ (j.time - x.termin).natAbs = delta j :=
        ⟨hxroom, hxws ▸ hin.1, hxwe ▸ hin.2, by rw [hxterm]; rfl⟩
      refine ⟨fun hmem => hpre x hmem hQx, fun hxw => ?_⟩
      exact hne (hxterm.symm.trans (congrArg Window.termin hxw))
    have hcw_u1 := cands_earlier hws hQw1 ⟨hQw2, hQw3⟩ hgen u1 u2 hu
    have hcw_eq : mkJ ec₀ w = JRow.mk j.time j.uid_kartice j.ucionica j.cuvar
        w.termin w.window_start w.window_end := by
      simp only [mkJ]
      rw [hjt, hjid, hju, hjcu]
    have hmem_u1f : mkJ ec₀ w ∈
        u1.filter (fun x => decide (jkey x = jkey j)) :=
      List.mem_filter.2 ⟨hcw_eq ▸ hcw_u1, by simpa using hjkeq⟩
    rw [huf1] at hmem_u1f
    have hmem_s1 : mkJ ec₀ w ∈ s1 := by
      have hm1 : mkJ ec₀ w ∈ s1.filter (fun x => decide (jkey x = jkey j)) := by
        rw [hp]
        exact List.mem_append.2 (Or.inl hmem_u1f)
      exact (List.mem_filter.1 hm1).1
    exact hnotin hmem_s1
  refine ⟨pre, w, post, hws, hQw1, hterm.symm, hQw2, hQw3, ?_, ?_⟩
  · intro w' hw' hr1 hr2 hr3
    rw [hQw4]
    exact hminW w' hw' hr1 hr2 hr3
  · intro w' hw' hcontra
    obtain ⟨h1, h2, h3, h4⟩ := hcontra
    exact hpre w' hw' ⟨h1, h2, h3, h4.trans hQw4⟩

/-- Claim C2 as amended: every output record is matched to a window that
contains its event time and whose slot has minimal distance
`|event_time − slot_time|` among all containing windows for that location;
on an exact tie in that distance, the window occurring EARLIEST in the windows
input (the stable join order), not the one with the earlier slot time, wins:
the matched window is the first containing window of minimal distance. -/
theorem C2_nearest_first_window (log_df : List LogRow) (windows : List Window)
    (kartice : List KarticeRow) :
    ∀ o ∈ assign_logs_to_windows log_df windows kartice,
      ∃ pre w post, windows = pre ++ w :: post ∧
        w.ucionica = o.ucionica ∧ w.termin = o.termin ∧
        w.window_start ≤ o.vrijeme ∧ o.vrijeme < w.window_end ∧
        (∀ w' ∈ windows, w'.ucionica = o.ucionica →
          w'.window_start ≤ o.vrijeme → o.vrijeme < w'.window_end →
          (o.vrijeme - w.termin).natAbs ≤ (o.vrijeme - w'.termin).natAbs) ∧
        (∀ w' ∈ pre, ¬ (w'.ucionica = o.ucionica ∧
          w'.window_start ≤ o.vrijeme ∧ o.vrijeme < w'.window_end ∧
          (o.vrijeme - w'.termin).natAbs = (o.vrijeme - w.termin).natAbs)) := by
  intro o ho
  obtain ⟨j, hj, hjo⟩ := assign_mem ho
  subst hjo
  exact dedup_first_minimal hj

/-- Witness for the amended C2 at the tie input of the counterexample: the
matched window (slot 30) is the first containing window of minimal distance. -/
theorem C2_nearest_first_window_witness :
    ∃ pre w post,
      ([⟨"A".data, 30, -3570, 1830⟩, ⟨"A".data, 0, -3600, 1800⟩] : List Window) =
        pre ++ w :: post ∧
      w.ucionica = (OutRow.mk "A".data 15 "c1".data none 30).ucionica ∧
      w.termin = (OutRow.mk "A".data 15 "c1".data none 30).termin ∧
      w.window_start ≤ (OutRow.mk "A".data 15 "c1".data none 30).vrijeme ∧
      (OutRow.mk "A".data 15 "c1".data none 30).vrijeme < w.window_end ∧
      (∀ w' ∈ ([⟨"A".data, 30, -3570, 1830⟩, ⟨"A".data, 0, -3600, 1800⟩] :
          List Window),
        w'.ucionica = (OutRow.mk "A".data 15 "c1".data none 30).ucionica →
        w'.window_start ≤ (OutRow.mk "A".data 15 "c1".data none 30).vrijeme →
        (OutRow.mk "A".data 15 "c1".data none 30).vrijeme < w'.window_end →
        ((OutRow.mk "A".data 15 "c1".data none 30).vrijeme - w.termin).natAbs ≤
          ((OutRow.mk "A".data 15 "c1".data none 30).vrijeme - w'.termin).natAbs) ∧
      (∀ w' ∈ pre, ¬ (w'.ucionica =
          (OutRow.mk "A".data 15 "c1".data none 30).ucionica ∧
        w'.window_start ≤ (OutRow.mk "A".data 15 "c1".data none 30).vrijeme ∧
        (OutRow.mk "A".data 15 "c1".data none 30).vrijeme < w'.window_end ∧
        ((OutRow.mk "A".data 15 "c1".data none 30).vrijeme - w'.termin).natAbs =
          ((OutRow.mk "A".data 15 "c1".data none 30).vrijeme -
            w.termin).natAbs)) :=
  C2_nearest_first_window [⟨15, "c1".data, "A".data⟩]
    [⟨"A".data, 30, -3570, 1830⟩, ⟨"A".data, 0, -3600, 1800⟩] []
    (OutRow.mk "A".data 15 "c1".data none 30) (by decide)

end CuvariEvidencija
